import Mathlib

/-!
Verification of the `mahou` scanner and statement grouper (`src/main.rs`).

The Rust source is embedded shallowly:

* characters are `Char`, strings are `List Char`;
* Rust's `String::len` (UTF-8 byte length) is modelled by `byte_len`,
  with `char_utf8_len` mirroring `char::len_utf8`;
* the mutable scanner loop (`Lexer::lexer`) becomes the tail-recursive
  `lexer_loop`; the loop guard `index + 1 <= chars_len` is kept verbatim
  and a fuel argument (initially `chars_len`, exactly the number of loop
  iterations) makes the recursion structural; the out-of-bounds vector
  access `self.chars[self.index]` (a Rust panic) is modelled by `none`;
* the grouper (`Parser::parse` with `set`/`print`/`exec`) becomes
  `parse_loop`; the unchecked indexing `line[1]`/`line[3]` (a Rust
  panic when out of range) is modelled by `none`.
-/

set_option maxRecDepth 4000

/-- Rust `is_char_whitespace`: tab, space or newline. -/
def is_char_whitespace (ch : Char) : Bool :=
  match ch with
  | '\t' | ' ' | '\n' => true
  | _ => false

/-- Rust `is_char_symbol`: one of `+ - * / > < = ; $`. -/
def is_char_symbol (ch : Char) : Bool :=
  match ch with
  | '+' | '-' | '*' | '/' | '>' | '<' | '=' | ';' | '$' => true
  | _ => false

/-- Rust `is_char_numeric`: `ch.is_digit(10)`. -/
def is_char_numeric (ch : Char) : Bool :=
  ch.isDigit

/-- Rust `ends_token`: whether the current or the next character ends the
current token.  The if-chain is kept in source order. -/
def ends_token (cur next : Char) : Bool :=
  if is_char_whitespace next then true
  else if is_char_symbol cur then true
  else if is_char_symbol next then true
  else if is_char_whitespace cur then false
  else false

/-- Rust `enum Tokens`. -/
inductive Tokens where
  | Assign
  | Var
  | Set
  | Jump
  | Print
  | Minus
  | Plus
  | Divide
  | Multiply
  | Semi
  | Identifier
  | Numeric
  deriving DecidableEq, Repr

/-- Rust `struct Token`. -/
structure Token where
  part : List Char
  token : Tokens
  line_num : Int
  char_num : Int
  deriving DecidableEq, Repr

/-- The re-classification loop at the end of Rust `tokenize`: starting from
`Identifier`, switch to `Numeric` at the first decimal digit and stop. -/
def numeric_scan : List Char → Tokens
  | [] => Tokens.Identifier
  | c :: cs => if is_char_numeric c then Tokens.Numeric else numeric_scan cs

/-- Rust `tokenize`: the exact-match table, then the digit re-classification
of `Identifier`. -/
def tokenize (part : List Char) : Tokens :=
  let token : Tokens :=
    if part = ['-'] then Tokens.Minus
    else if part = ['+'] then Tokens.Plus
    else if part = ['/'] then Tokens.Divide
    else if part = ['*'] then Tokens.Multiply
    else if part = ['='] then Tokens.Assign
    else if part = ['$'] then Tokens.Var
    else if part = [';'] then Tokens.Semi
    else if part = ['s', 'e', 't'] then Tokens.Set
    else if part = ['j', 'u', 'm', 'p'] then Tokens.Jump
    else if part = ['p', 'r', 'i', 'n', 't'] then Tokens.Print
    else Tokens.Identifier
  if token = Tokens.Identifier then numeric_scan part else token

/-- Rust `char::len_utf8`: number of bytes of the character in UTF-8. -/
def char_utf8_len (c : Char) : Nat :=
  if c.toNat < 0x80 then 1
  else if c.toNat < 0x800 then 2
  else if c.toNat < 0x10000 then 3
  else 4

/-- Rust `String::len`: the UTF-8 byte length of a string. -/
def byte_len (cs : List Char) : Nat :=
  (cs.map char_utf8_len).sum

/-- The body of the `while self.index + 1 <= chars_len` loop of
`Lexer::lexer`.  Arguments after `chars_len`: the fuel (the remaining
number of iterations, `chars_len - index` on every reachable state), then
the fields `index`, `previous_char`, `current_char`, `next_char`, the
buffer `current_part`, `line_num` and the accumulated `tokens`.  The
vector access `self.chars[self.index]` in `move_pointer` is `chars.get?
index`, and `none` models the Rust index-out-of-bounds panic. -/
def lexer_loop (chars : List Char) (chars_len : Nat) :
    Nat → Nat → Char → Char → Char → List Char → Int → List Token →
    Option (List Token)
  | 0, index, _, _, _, _, _, acc =>
    if index + 1 ≤ chars_len then none else some acc
  | fuel + 1, index, _prev, cur, nxt, part, line_num, acc =>
    if index + 1 ≤ chars_len then
      let step : List Char × Int × List Token :=
        if cur = '\n' then
          (part, line_num + 1, acc)
        else if is_char_whitespace cur then
          (part, line_num, acc)
        else
          let part2 := part ++ [cur]
          if ends_token cur nxt then
            ([], line_num,
              acc ++ [{ part := part2, token := tokenize part2,
                        line_num := line_num,
                        char_num := (index : Int) - (byte_len part2 : Int) }])
          else
            (part2, line_num, acc)
      match chars.get? index with
      | none => none
      | some c =>
          lexer_loop chars chars_len fuel (index + 1) cur nxt c
            step.1 step.2.1 step.2.2
    else
      some acc

/-- Rust `Lexer::lexer` on the already padded contents: collect the
characters, take the byte length as loop bound, and run the loop from
`index = 0`, `line_num = 1`, with the three window characters initialized
to `' '` by `new_lexer`. -/
def lexer (contents : List Char) : Option (List Token) :=
  lexer_loop contents (byte_len contents) (byte_len contents) 0 ' ' ' ' ' ' [] 1 []

/-- Rust `new_lexer`: append the four-space padding `"    "`. -/
def new_lexer (contents : List Char) : List Char :=
  contents ++ [' ', ' ', ' ', ' ']

/-- The whole scanner as run by `main`: pad, then lex. -/
def run_lexer (input : List Char) : Option (List Token) :=
  lexer (new_lexer input)

/-- Rust `Parser::set`: `format!("{} = {}", line[1].part, line[3].part)`;
`none` models the panic of an out-of-range index. -/
def set_stmt (line : List Token) : Option (List Char) :=
  match line.get? 1, line.get? 3 with
  | some name, some value => some (name.part ++ [' ', '=', ' '] ++ value.part)
  | _, _ => none

/-- Rust `Parser::print`: `format!("print({})", line[1].part)`. -/
def print_stmt (line : List Token) : Option (List Char) :=
  match line.get? 1 with
  | some name => some (['p', 'r', 'i', 'n', 't', '('] ++ name.part ++ [')'])
  | none => none

/-- Rust `Parser::exec`: concatenate all token texts and pop the final
character. -/
def exec_stmt (line : List Token) : List Char :=
  ((line.map Token.part).flatten).dropLast

/-- The dispatch on `current_line[0].token` performed by `Parser::parse`
when a `Semi` token closes the line. -/
def dispatch (line : List Token) : Option (List Char) :=
  match line.get? 0 with
  | none => none
  | some first =>
    if first.token = Tokens.Set then set_stmt line
    else if first.token = Tokens.Print then print_stmt line
    else some (exec_stmt line)

/-- The token loop of Rust `Parser::parse`: push each token onto
`current_line`; on a `Semi` token dispatch the line and reset. -/
def parse_loop : List Token → List Token → List (List Char) →
    Option (List (List Char))
  | [], _, out => some out
  | t :: rest, cur, out =>
    if t.token = Tokens.Semi then
      match dispatch (cur ++ [t]) with
      | none => none
      | some r => parse_loop rest [] (out ++ [r])
    else
      parse_loop rest (cur ++ [t]) out

/-- Rust `Parser::parse`. -/
def parse (toks : List Token) : Option (List (List Char)) :=
  parse_loop toks [] []

/-- The scanner loop specialized to the in-bounds case: the character
stream is consumed structurally, two lookahead characters beyond the
processed portion are always present, and the loop stops when only the
two lookahead characters remain.  `lexer_loop` is proved equal to this
function whenever the byte length of the contents equals its character
count. -/
def scan_list : List Char → Nat → List Char → Int → List Token → List Token
  | cur :: nxt :: c :: rest, index, part, line_num, acc =>
    if cur = '\n' then
      scan_list (nxt :: c :: rest) (index + 1) part (line_num + 1) acc
    else if is_char_whitespace cur then
      scan_list (nxt :: c :: rest) (index + 1) part line_num acc
    else
      let part2 := part ++ [cur]
      if ends_token cur nxt then
        scan_list (nxt :: c :: rest) (index + 1) [] line_num
          (acc ++ [{ part := part2, token := tokenize part2,
                     line_num := line_num,
                     char_num := (index : Int) - (byte_len part2 : Int) }])
      else
        scan_list (nxt :: c :: rest) (index + 1) part2 line_num acc
  | _, _, _, _, acc => acc

/-! ## Byte length vs character count -/

theorem char_utf8_len_pos (c : Char) : 1 ≤ char_utf8_len c := by
  unfold char_utf8_len
  split
  · exact Nat.le_refl 1
  · split
    · omega
    · split <;> omega

theorem length_le_byte_len (cs : List Char) : cs.length ≤ byte_len cs := by
  induction cs with
  | nil => simp [byte_len]
  | cons c cs ih =>
    have := char_utf8_len_pos c
    simp only [byte_len, List.map_cons, List.sum_cons, List.length_cons]
    simp only [byte_len] at ih
    omega

theorem byte_len_eq_length_ascii (cs : List Char)
    (h : byte_len cs = cs.length) : ∀ c ∈ cs, char_utf8_len c = 1 := by
  induction cs with
  | nil => intro c hc; simp at hc
  | cons a cs ih =>
    have ha := char_utf8_len_pos a
    have hrest := length_le_byte_len cs
    simp only [byte_len, List.map_cons, List.sum_cons, List.length_cons] at h
    simp only [byte_len] at hrest
    intro c hc
    rcases List.mem_cons.mp hc with rfl | hc
    · omega
    · exact ih (by simp only [byte_len]; omega) c hc

theorem byte_len_of_ascii (cs : List Char)
    (h : ∀ c ∈ cs, char_utf8_len c = 1) : byte_len cs = cs.length := by
  induction cs with
  | nil => simp [byte_len]
  | cons a cs ih =>
    simp only [byte_len, List.map_cons, List.sum_cons, List.length_cons]
    rw [h a (List.mem_cons_self a cs)]
    simp only [byte_len] at ih
    rw [ih (fun c hc => h c (List.mem_cons_of_mem a hc))]
    omega

/-! ## The scanner loop succeeds exactly on in-bounds runs -/

theorem lexer_loop_some_le (chars : List Char) (chars_len : Nat) :
    ∀ fuel index prev cur nxt part line acc ts,
      lexer_loop chars chars_len fuel index prev cur nxt part line acc = some ts →
      index + 1 ≤ chars_len → chars_len ≤ chars.length := by
  intro fuel
  induction fuel with
  | zero =>
    intro index prev cur nxt part line acc ts h hle
    simp only [lexer_loop, if_pos hle] at h
    exact absurd h (by simp)
  | succ fuel ih =>
    intro index prev cur nxt part line acc ts h hle
    simp only [lexer_loop, if_pos hle] at h
    rcases hget : chars.get? index with _ | c
    · rw [hget] at h; simp at h
    · rw [hget] at h
      have hidx : index < chars.length := by
        by_contra hcon
        rw [List.get?_eq_none.mpr (by omega)] at hget
        simp at hget
      by_cases h2 : index + 1 + 1 ≤ chars_len
      · exact ih (index + 1) cur nxt c _ _ _ ts h h2
      · omega

theorem lexer_loop_eq_scan_list (chars : List Char) (chars_len : Nat)
    (hlen : chars_len = chars.length) :
    ∀ fuel index prev cur nxt part line acc,
      index + fuel = chars_len →
      lexer_loop chars chars_len fuel index prev cur nxt part line acc =
        some (scan_list (cur :: nxt :: chars.drop index) index part line acc) := by
  intro fuel
  induction fuel with
  | zero =>
    intro index prev cur nxt part line acc hidx
    have hdrop : chars.drop index = [] :=
      List.drop_eq_nil_of_le (by omega)
    simp [lexer_loop, scan_list, hdrop, show ¬ (index + 1 ≤ chars_len) by omega]
  | succ fuel ih =>
    intro index prev cur nxt part line acc hidx
    have hlt : index < chars.length := by omega
    have hdrop : chars.drop index = chars.get ⟨index, hlt⟩ :: chars.drop (index + 1) := by
      simpa using List.drop_eq_getElem_cons hlt
    have hget : chars.get? index = some (chars.get ⟨index, hlt⟩) :=
      List.get?_eq_get hlt
    have hguard : index + 1 ≤ chars_len := by omega
    rw [hdrop]
    by_cases hn : cur = '\n'
    · simp only [lexer_loop, if_pos hguard, hget, scan_list, if_pos hn]
      exact ih (index + 1) cur nxt _ part (line + 1) acc (by omega)
    · by_cases hw : is_char_whitespace cur
      · simp only [lexer_loop, if_pos hguard, hget, scan_list, if_neg hn, if_pos hw]
        exact ih (index + 1) cur nxt _ part line acc (by omega)
      · by_cases he : ends_token cur nxt
        · simp only [lexer_loop, if_pos hguard, hget, scan_list, if_neg hn,
            if_neg hw, if_pos he]
          exact ih (index + 1) cur nxt _ [] line _ (by omega)
        · simp only [lexer_loop, if_pos hguard, hget, scan_list, if_neg hn,
            if_neg hw, if_neg he]
          exact ih (index + 1) cur nxt _ (part ++ [cur]) line acc (by omega)

/-- Every successful scan is in bounds (the padded byte length equals the
padded character count) and is computed by `scan_list` on the stream that
starts with the two initial `' '` window characters. -/
theorem run_lexer_some_inv (input : List Char) (ts : List Token)
    (h : run_lexer input = some ts) :
    byte_len (new_lexer input) = (new_lexer input).length ∧
      ts = scan_list (' ' :: ' ' :: new_lexer input) 0 [] 1 [] := by
  have hpad : 1 ≤ byte_len (new_lexer input) := by
    have h4 : 4 ≤ (new_lexer input).length := by simp [new_lexer]
    have := length_le_byte_len (new_lexer input)
    omega
  have hle : byte_len (new_lexer input) ≤ (new_lexer input).length := by
    unfold run_lexer lexer at h
    exact lexer_loop_some_le _ _ _ 0 ' ' ' ' ' ' [] 1 [] ts h hpad
  have hge := length_le_byte_len (new_lexer input)
  have heq : byte_len (new_lexer input) = (new_lexer input).length := by omega
  refine ⟨heq, ?_⟩
  unfold run_lexer lexer at h
  rw [lexer_loop_eq_scan_list (new_lexer input) (byte_len (new_lexer input)) heq
    (byte_len (new_lexer input)) 0 ' ' ' ' ' ' [] 1 [] (by omega)] at h
  simp only [List.drop_zero] at h
  exact (Option.some_injective _ h).symm

/-! ## Small unfolding and boolean helpers -/

/-- The token pushed by the scanner when `part2` is the buffer contents
(ending character included) at emission time, `line` the current line
counter and `idx` the current index.  Definitionally the literal used in
`lexer_loop` and `scan_list`. -/
def emitted_token (part2 : List Char) (line : Int) (idx : Nat) : Token :=
  { part := part2, token := tokenize part2, line_num := line, char_num := (idx : Int) - (byte_len part2 : Int) }

theorem emitted_token_part (p : List Char) (l : Int) (i : Nat) :
    (emitted_token p l i).part = p := rfl

theorem emitted_token_line_num (p : List Char) (l : Int) (i : Nat) :
    (emitted_token p l i).line_num = l := rfl

theorem emitted_token_char_num (p : List Char) (l : Int) (i : Nat) :
    (emitted_token p l i).char_num = (i : Int) - (byte_len p : Int) := rfl

theorem scan_list_nil (idx : Nat) (part : List Char) (line : Int)
    (acc : List Token) : scan_list [] idx part line acc = acc := rfl

theorem scan_list_one (a : Char) (idx : Nat) (part : List Char) (line : Int)
    (acc : List Token) : scan_list [a] idx part line acc = acc := rfl

theorem scan_list_two (a b : Char) (idx : Nat) (part : List Char) (line : Int)
    (acc : List Token) : scan_list [a, b] idx part line acc = acc := rfl

theorem scan_list_cons (a b c : Char) (rest : List Char) (idx : Nat)
    (part : List Char) (line : Int) (acc : List Token) :
    scan_list (a :: b :: c :: rest) idx part line acc =
      if a = '\n' then
        scan_list (b :: c :: rest) (idx + 1) part (line + 1) acc
      else if is_char_whitespace a then
        scan_list (b :: c :: rest) (idx + 1) part line acc
      else if ends_token a b then
        scan_list (b :: c :: rest) (idx + 1) [] line
          (acc ++ [emitted_token (part ++ [a]) line idx])
      else
        scan_list (b :: c :: rest) (idx + 1) (part ++ [a]) line acc := rfl

theorem ends_token_eq_false {cur nxt : Char} (h : ends_token cur nxt = false) :
    is_char_whitespace nxt = false ∧ is_char_symbol cur = false ∧
      is_char_symbol nxt = false := by
  unfold ends_token at h
  by_cases h1 : is_char_whitespace nxt <;> by_cases h2 : is_char_symbol cur <;>
    by_cases h3 : is_char_symbol nxt <;> simp_all

theorem newline_is_whitespace : is_char_whitespace '\n' = true := rfl

/-! ## Symbols always form one-character tokens -/

theorem scan_list_symbol_inv (s : List Char) :
    ∀ idx part line acc,
      (∀ t ∈ acc, ∀ c ∈ t.part, is_char_symbol c = true → t.part = [c]) →
      (∀ c ∈ part, is_char_symbol c = false) →
      (part ≠ [] → ∀ a, s.head? = some a →
        is_char_whitespace a = false ∧ is_char_symbol a = false) →
      ∀ t ∈ scan_list s idx part line acc, ∀ c ∈ t.part,
        is_char_symbol c = true → t.part = [c] := by
  induction s with
  | nil =>
    intro idx part line acc hacc hpart hcur
    simpa [scan_list_nil] using hacc
  | cons a s ih =>
    intro idx part line acc hacc hpart hcur
    match s with
    | [] => simpa [scan_list_one] using hacc
    | [b] => simpa [scan_list_two] using hacc
    | b :: c :: rest =>
      rw [scan_list_cons]
      by_cases hn : a = '\n'
      · have hpe : part = [] := by
          by_contra hne
          have := (hcur hne a rfl).1
          rw [hn] at this
          simp [is_char_whitespace] at this
        rw [if_pos hn]
        exact ih (idx + 1) part (line + 1) acc hacc hpart (by simp [hpe])
      · rw [if_neg hn]
        by_cases hw : is_char_whitespace a = true
        · have hpe : part = [] := by
            by_contra hne
            have := (hcur hne a rfl).1
            rw [this] at hw
            simp at hw
          rw [if_pos hw]
          exact ih (idx + 1) part line acc hacc hpart (by simp [hpe])
        · rw [if_neg hw]
          by_cases he : ends_token a b = true
          · rw [if_pos he]
            refine ih (idx + 1) [] line _ ?_ (by simp) (by simp)
            intro t ht
            rcases List.mem_append.mp ht with ht | ht
            · exact hacc t ht
            · have ht' : t = emitted_token (part ++ [a]) line idx := by simpa using ht
              subst ht'
              intro d hd hdsym
              rw [emitted_token_part] at hd ⊢
              rcases List.eq_nil_or_concat part with hpe | ⟨_, _, hne⟩
              · subst hpe
                simp only [List.nil_append, List.mem_singleton] at hd
                subst hd
                rfl
              · have hpne : part ≠ [] := by rw [hne]; simp
                have hasym : is_char_symbol a = false := (hcur hpne a rfl).2
                rcases List.mem_append.mp hd with hd | hd
                · rw [hpart d hd] at hdsym; simp at hdsym
                · rw [List.mem_singleton] at hd
                  subst hd
                  rw [hasym] at hdsym; simp at hdsym
          · rw [if_neg he]
            have hef := ends_token_eq_false (by simpa using he)
            refine ih (idx + 1) (part ++ [a]) line acc hacc ?_ ?_
            · intro d hd
              rcases List.mem_append.mp hd with hd | hd
              · exact hpart d hd
              · rw [List.mem_singleton] at hd; subst hd; exact hef.2.1
            · intro _ x hx
              rw [List.head?_cons, Option.some_inj] at hx
              subst hx
              exact ⟨hef.1, hef.2.2⟩

/-! ## Tokens are nonempty and contain no whitespace characters -/

theorem scan_list_part_inv (s : List Char) :
    ∀ idx part line acc,
      (∀ t ∈ acc, t.part ≠ [] ∧ ∀ c ∈ t.part, is_char_whitespace c = false) →
      (∀ c ∈ part, is_char_whitespace c = false) →
      ∀ t ∈ scan_list s idx part line acc,
        t.part ≠ [] ∧ ∀ c ∈ t.part, is_char_whitespace c = false := by
  induction s with
  | nil =>
    intro idx part line acc hacc hpart
    simpa [scan_list_nil] using hacc
  | cons a s ih =>
    intro idx part line acc hacc hpart
    match s with
    | [] => simpa [scan_list_one] using hacc
    | [b] => simpa [scan_list_two] using hacc
    | b :: c :: rest =>
      rw [scan_list_cons]
      by_cases hn : a = '\n'
      · rw [if_pos hn]
        exact ih (idx + 1) part (line + 1) acc hacc hpart
      · rw [if_neg hn]
        by_cases hw : is_char_whitespace a = true
        · rw [if_pos hw]
          exact ih (idx + 1) part line acc hacc hpart
        · rw [if_neg hw]
          have hwa : is_char_whitespace a = false := by simpa using hw
          by_cases he : ends_token a b = true
          · rw [if_pos he]
            refine ih (idx + 1) [] line _ ?_ (by simp)
            intro t ht
            rcases List.mem_append.mp ht with ht | ht
            · exact hacc t ht
            · have ht' : t = emitted_token (part ++ [a]) line idx := by simpa using ht
              subst ht'
              refine ⟨by simp [emitted_token_part], ?_⟩
              intro d hd
              rw [emitted_token_part] at hd
              rcases List.mem_append.mp hd with hd | hd
              · exact hpart d hd
              · rw [List.mem_singleton] at hd; subst hd; exact hwa
          · rw [if_neg he]
            refine ih (idx + 1) (part ++ [a]) line acc hacc ?_
            intro d hd
            rcases List.mem_append.mp hd with hd | hd
            · exact hpart d hd
            · rw [List.mem_singleton] at hd; subst hd; exact hwa

/-! ## Concatenating token texts preserves the non-whitespace characters -/

theorem scan_list_flatten (s : List Char) :
    ∀ idx part line acc,
      (part ≠ [] → 2 < s.length ∧
        ∀ a, s.head? = some a → is_char_whitespace a = false) →
      (∀ c, (s.dropLast.dropLast).getLast? = some c →
        is_char_whitespace c = true) →
      ((scan_list s idx part line acc).map Token.part).flatten =
        (acc.map Token.part).flatten ++ part ++
          (s.dropLast.dropLast).filter (fun c => !is_char_whitespace c) := by
  induction s with
  | nil =>
    intro idx part line acc hhead hlast
    have hpe : part = [] := by
      by_contra hne
      have := (hhead hne).1
      simp at this
    simp [scan_list_nil, hpe]
  | cons a s ih =>
    intro idx part line acc hhead hlast
    match s with
    | [] =>
      have hpe : part = [] := by
        by_contra hne
        have := (hhead hne).1
        simp at this
      simp [scan_list_one, hpe]
    | [b] =>
      have hpe : part = [] := by
        by_contra hne
        have := (hhead hne).1
        simp at this
      simp [scan_list_two, hpe]
    | b :: c :: rest =>
      have hd2 : (b :: c :: rest).dropLast ≠ [] := by
        rw [List.dropLast_cons_of_ne_nil (by simp : (c :: rest : List Char) ≠ [])]
        simp
      have hP : (a :: b :: c :: rest).dropLast.dropLast =
          a :: ((b :: c :: rest).dropLast.dropLast) := by
        rw [List.dropLast_cons_of_ne_nil (by simp : (b :: c :: rest : List Char) ≠ [])]
        rw [List.dropLast_cons_of_ne_nil hd2]
      have hlast' : ∀ w, ((b :: c :: rest).dropLast.dropLast).getLast? = some w →
          is_char_whitespace w = true := by
        intro w hw
        apply hlast w
        rw [hP]
        rcases hq : (b :: c :: rest).dropLast.dropLast with _ | ⟨x, xs⟩
        · rw [hq] at hw; simp at hw
        · rw [hq] at hw
          rw [List.getLast?_cons_cons]
          exact hw
      rw [scan_list_cons]
      by_cases hn : a = '\n'
      · have hpe : part = [] := by
          by_contra hne
          have := (hhead hne).2 a rfl
          rw [hn] at this
          simp [is_char_whitespace] at this
        rw [if_pos hn]
        rw [ih (idx + 1) part (line + 1) acc (fun hne => absurd hpe hne) hlast']
        rw [hP]
        subst hn
        simp [List.filter_cons, newline_is_whitespace, hpe]
      · rw [if_neg hn]
        by_cases hw : is_char_whitespace a = true
        · have hpe : part = [] := by
            by_contra hne
            have := (hhead hne).2 a rfl
            rw [this] at hw
            simp at hw
          rw [if_pos hw]
          rw [ih (idx + 1) part line acc (fun hne => absurd hpe hne) hlast']
          rw [hP]
          simp [List.filter_cons, hw, hpe]
        · have hwa : is_char_whitespace a = false := by simpa using hw
          rw [if_neg hw]
          by_cases he : ends_token a b = true
          · rw [if_pos he]
            rw [ih (idx + 1) [] line (acc ++ [emitted_token (part ++ [a]) line idx])
              (fun hne => absurd rfl hne) hlast']
            rw [hP]
            simp [List.filter_cons, hwa, emitted_token_part, List.map_append,
              List.flatten_append, List.append_assoc]
          · rw [if_neg he]
            have hef := ends_token_eq_false (by simpa using he)
            have hne2 : (b :: c :: rest).dropLast.dropLast ≠ [] := by
              intro h0
              have := hlast a (by rw [hP, h0]; rfl)
              rw [hwa] at this
              simp at this
            have hlen : 2 < (b :: c :: rest).length := by
              have h1 : ((b :: c :: rest).dropLast.dropLast).length =
                  (b :: c :: rest).length - 2 := by
                simp [List.length_dropLast]
              have h2 : 0 < ((b :: c :: rest).dropLast.dropLast).length :=
                List.length_pos.mpr hne2
              omega
            rw [ih (idx + 1) (part ++ [a]) line acc ?_ hlast']
            · rw [hP]
              simp [List.filter_cons, hwa, List.append_assoc]
            · intro _
              refine ⟨hlen, ?_⟩
              intro x hx
              rw [List.head?_cons, Option.some_inj] at hx
              subst hx
              exact hef.1

/-! ## Position bookkeeping helpers -/

theorem take_succ_of_drop {α : Type} (l : List α) (n : Nat) (a : α) (t : List α)
    (h : l.drop n = a :: t) : l.take (n + 1) = l.take n ++ [a] := by
  induction n generalizing l with
  | zero =>
    rw [List.drop_zero] at h
    subst h
    rfl
  | succ n ih =>
    cases l with
    | nil => simp at h
    | cons x xs =>
      rw [List.drop_succ_cons] at h
      rw [List.take_succ_cons, List.take_succ_cons, ih xs h]
      rfl

theorem drop_succ_of_drop {α : Type} (l : List α) (n : Nat) (a : α) (t : List α)
    (h : l.drop n = a :: t) : l.drop (n + 1) = t := by
  have h1 : l.drop (n + 1) = (l.drop n).drop 1 := by
    rw [List.drop_drop]
  rw [h1, h]
  rfl

theorem lt_length_of_drop {α : Type} (l : List α) (n : Nat) (a : α) (t : List α)
    (h : l.drop n = a :: t) : n < l.length := by
  have h1 := List.length_drop n l
  rw [h] at h1
  simp only [List.length_cons] at h1
  omega

theorem get?_of_drop {α : Type} (l : List α) (n : Nat) (a : α) (t : List α)
    (h : l.drop n = a :: t) : l.get? n = some a := by
  have h1 : (l.drop n).get? 0 = l.get? (n + 0) := List.get?_drop l n 0
  rw [h] at h1
  simpa using h1.symm

theorem count_newline_eq_zero (l : List Char)
    (h : ∀ c ∈ l, is_char_whitespace c = false) : l.count '\n' = 0 := by
  rw [List.count_eq_zero]
  intro hmem
  have h1 := h '\n' hmem
  rw [newline_is_whitespace] at h1
  exact absurd h1 (by simp)

theorem take_drop_snoc (full : List Char) (idx len : Nat) (a : Char)
    (t part : List Char) (hdrop : full.drop idx = a :: t)
    (hpart : (full.take idx).drop (idx - len) = part) (hle : len ≤ idx) :
    (full.take (idx + 1)).drop (idx - len) = part ++ [a] := by
  have hidxlt : idx < full.length := lt_length_of_drop full idx a t hdrop
  rw [take_succ_of_drop full idx a t hdrop]
  rw [List.drop_append_of_le_length (by rw [List.length_take]; omega)]
  rw [hpart]

theorem drop_take_of_take_drop (full : List Char) (idx len : Nat)
    (part : List Char) (hpart : (full.take idx).drop (idx - len) = part)
    (hle : len ≤ idx) : (full.drop (idx - len)).take len = part := by
  rw [List.take_drop]
  rw [show idx - len + len = idx by omega]
  exact hpart

theorem take_split_at (full : List Char) (idx len : Nat) (part : List Char)
    (hpart : (full.take idx).drop (idx - len) = part) (hle : len ≤ idx) :
    full.take idx = full.take (idx - len) ++ part := by
  conv_lhs => rw [← List.take_append_drop (idx - len) (full.take idx)]
  rw [List.take_take, min_eq_left (by omega : idx - len ≤ idx), hpart]

/-- The facts recorded about every emitted token when the stream of `full`
is scanned: a positive one-based column, a nonempty text, the text occurs
in `full` at offset `char_num + 1` (the two initial window blanks put the
first content character of `full` at offset 2, matching column 1 of the
padded source), and the line number counts the newlines before the
token's first character. -/
def tok_good (full : List Char) (t : Token) : Prop :=
  1 ≤ t.char_num ∧ t.part ≠ [] ∧
    (full.drop (t.char_num.toNat + 1)).take t.part.length = t.part ∧
    t.line_num = 1 + ((full.take (t.char_num.toNat + 1)).count '\n' : Int)

/-- Master invariant of the scanner loop for positions, line numbers and
column monotonicity: scanning the suffix `full.drop idx` with a buffer
holding exactly the characters of `full` at offsets `idx - part.length`
to `idx - 1` produces only tokens satisfying `tok_good`, with
non-decreasing columns. -/
theorem scan_list_pos (full : List Char)
    (hws2 : ∀ c ∈ full.take 2, is_char_whitespace c = true)
    (hascii : ∀ c ∈ full, char_utf8_len c = 1) :
    ∀ (s : List Char) (idx : Nat) (part : List Char) (line : Int)
      (acc : List Token),
      s = full.drop idx →
      line = 1 + (((full.take idx).count '\n') : Int) →
      (full.take idx).drop (idx - part.length) = part →
      (part ≠ [] → part.length + 2 ≤ idx) →
      (∀ c ∈ part, is_char_whitespace c = false) →
      (part ≠ [] → ∀ x, s.head? = some x → is_char_whitespace x = false) →
      (∀ t ∈ acc, tok_good full t) →
      (∀ t ∈ acc, t.char_num + (t.part.length : Int) ≤
        (idx : Int) - (part.length : Int)) →
      ((acc.map Token.char_num).Pairwise (· ≤ ·)) →
      (∀ t ∈ scan_list s idx part line acc, tok_good full t) ∧
        ((scan_list s idx part line acc).map Token.char_num).Pairwise (· ≤ ·) := by
  intro s
  induction s with
  | nil =>
    intro idx part line acc hs hline hpart1 hpart2 hpart3 hphead hacc hbound hpair
    exact ⟨by simpa [scan_list_nil] using hacc, by simpa [scan_list_nil] using hpair⟩
  | cons a s ih =>
    intro idx part line acc hs hline hpart1 hpart2 hpart3 hphead hacc hbound hpair
    match s with
    | [] =>
      exact ⟨by simpa [scan_list_one] using hacc, by simpa [scan_list_one] using hpair⟩
    | [b] =>
      exact ⟨by simpa [scan_list_two] using hacc, by simpa [scan_list_two] using hpair⟩
    | b :: c :: rest =>
      have hdropa : full.drop idx = a :: (b :: c :: rest) := hs.symm
      have hdropb : full.drop (idx + 1) = b :: c :: rest :=
        drop_succ_of_drop full idx a _ hdropa
      have hidxlt : idx < full.length := lt_length_of_drop full idx a _ hdropa
      have htake1 : full.take (idx + 1) = full.take idx ++ [a] :=
        take_succ_of_drop full idx a _ hdropa
      have hdropempty : (full.take (idx + 1)).drop (idx + 1) = [] :=
        List.drop_eq_nil_of_le (by rw [List.length_take]; omega)
      rw [scan_list_cons]
      by_cases hn : a = '\n'
      · have hpe : part = [] := by
          by_contra hne
          have hx := hphead hne a rfl
          rw [hn] at hx
          rw [newline_is_whitespace] at hx
          simp at hx
        rw [if_pos hn]
        subst hpe
        have hca : ([a].count '\n') = 1 := by rw [hn]; simp [List.count_cons]
        apply ih (idx + 1) [] (line + 1) acc hdropb.symm ?_ (by simpa using hdropempty)
          (fun h => absurd rfl h) (by simp) (fun h => absurd rfl h) hacc ?_ hpair
        · rw [htake1, List.count_append, hca, hline]
          push_cast
          ring
        · intro t ht
          have hb := hbound t ht
          simp only [List.length_nil, Nat.cast_zero] at hb ⊢
          push_cast at hb ⊢
          omega
      · rw [if_neg hn]
        have hca : ([a].count '\n') = 0 := by simp [List.count_cons, hn]
        have hline1 : line = 1 + (((full.take (idx + 1)).count '\n') : Int) := by
          rw [htake1, List.count_append, hca, hline]
          simp
        by_cases hw : is_char_whitespace a = true
        · have hpe : part = [] := by
            by_contra hne
            have hx := hphead hne a rfl
            rw [hw] at hx
            simp at hx
          rw [if_pos hw]
          subst hpe
          apply ih (idx + 1) [] line acc hdropb.symm hline1
            (by simpa using hdropempty)
            (fun h => absurd rfl h) (by simp) (fun h => absurd rfl h) hacc ?_ hpair
          intro t ht
          have hb := hbound t ht
          simp only [List.length_nil, Nat.cast_zero] at hb ⊢
          push_cast at hb ⊢
          omega
        · have hwa : is_char_whitespace a = false := by simpa using hw
          rw [if_neg hw]
          have hplen : part.length + 2 ≤ idx := by
            by_cases hpe : part = []
            · subst hpe
              simp only [List.length_nil]
              by_contra hcon
              have hlt2 : idx < 2 := by omega
              have hga : full.get? idx = some a := get?_of_drop full idx a _ hdropa
              have hta : (full.take 2).get? idx = some a := by
                rw [List.get?_take hlt2]
                exact hga
              have hmem : a ∈ full.take 2 := List.get?_mem hta
              have hx := hws2 a hmem
              rw [hwa] at hx
              simp at hx
            · exact hpart2 hpe
          have hamem : a ∈ full :=
            List.get?_mem (get?_of_drop full idx a _ hdropa)
          have hlena : byte_len (part ++ [a]) = part.length + 1 := by
            rw [byte_len_of_ascii]
            · simp
            · intro d hd
              rcases List.mem_append.mp hd with hd | hd
              · apply hascii
                rw [← hpart1] at hd
                exact List.mem_of_mem_take (List.mem_of_mem_drop hd)
              · rw [List.mem_singleton] at hd
                subst hd
                exact hascii d hamem
          have hocc2 : (full.take (idx + 1)).drop (idx - part.length) = part ++ [a] :=
            take_drop_snoc full idx part.length a _ part hdropa hpart1 (by omega)
          have hsplit : full.take idx = full.take (idx - part.length) ++ part :=
            take_split_at full idx part.length part hpart1 (by omega)
          have hcnt : ((full.take idx).count '\n') =
              ((full.take (idx - part.length)).count '\n') := by
            rw [hsplit, List.count_append, count_newline_eq_zero part hpart3]
            omega
          by_cases he : ends_token a b = true
          · rw [if_pos he]
            have hcn : (emitted_token (part ++ [a]) line idx).char_num =
                (idx : Int) - ((part.length : Int) + 1) := by
              rw [emitted_token_char_num, hlena]
              push_cast
              ring
            have htn : (emitted_token (part ++ [a]) line idx).char_num.toNat =
                idx - part.length - 1 := by
              rw [hcn]
              omega
            have hocc3 : (full.drop (idx - part.length)).take (part.length + 1) =
                part ++ [a] := by
              have h4 : (full.drop (idx + 1 - (part.length + 1))).take
                  (part.length + 1) = part ++ [a] := by
                apply drop_take_of_take_drop full (idx + 1) (part.length + 1)
                · rw [show idx + 1 - (part.length + 1) = idx - part.length by omega]
                  exact hocc2
                · omega
              rw [show idx - part.length = idx + 1 - (part.length + 1) by omega]
              exact h4
            have htokgood : tok_good full (emitted_token (part ++ [a]) line idx) := by
              refine ⟨?_, ?_, ?_, ?_⟩
              · rw [hcn]
                omega
              · rw [emitted_token_part]
                simp
              · rw [emitted_token_part, htn]
                rw [show idx - part.length - 1 + 1 = idx - part.length by omega]
                rw [show (part ++ [a]).length = part.length + 1 by simp]
                exact hocc3
              · rw [emitted_token_line_num, htn]
                rw [show idx - part.length - 1 + 1 = idx - part.length by omega]
                rw [hline, hcnt]
            have hacc' : ∀ t ∈ acc ++ [emitted_token (part ++ [a]) line idx],
                tok_good full t := by
              intro t ht
              rcases List.mem_append.mp ht with ht | ht
              · exact hacc t ht
              · rw [List.mem_singleton] at ht
                subst ht
                exact htokgood
            have hpair' : (((acc ++ [emitted_token (part ++ [a]) line idx]).map
                Token.char_num).Pairwise (· ≤ ·)) := by
              rw [List.map_append, List.pairwise_append]
              refine ⟨hpair, by simp, ?_⟩
              intro x hx y hy
              simp only [List.map_cons, List.map_nil, List.mem_singleton] at hy
              subst hy
              rw [List.mem_map] at hx
              obtain ⟨t, ht, rfl⟩ := hx
              have hb := hbound t ht
              have hg := hacc t ht
              have hlen1 : 1 ≤ t.part.length := by
                have hne := hg.2.1
                cases hq : t.part with
                | nil => exact absurd hq hne
                | cons u us => simp [hq]
              rw [hcn]
              omega
            have hbound' : ∀ t ∈ acc ++ [emitted_token (part ++ [a]) line idx],
                t.char_num + (t.part.length : Int) ≤
                  ((idx + 1 : Nat) : Int) - ((0 : Nat) : Int) := by
              intro t ht
              rcases List.mem_append.mp ht with ht | ht
              · have hb := hbound t ht
                push_cast at hb ⊢
                omega
              · rw [List.mem_singleton] at ht
                subst ht
                rw [hcn, emitted_token_part]
                simp only [List.length_append, List.length_singleton]
                push_cast
                omega
            apply ih (idx + 1) [] line _ hdropb.symm hline1
              (by simpa using hdropempty)
              (fun h => absurd rfl h) (by simp) (fun h => absurd rfl h)
              hacc' ?_ hpair'
            intro t ht
            have hb := hbound' t ht
            simpa using hb
          · rw [if_neg he]
            have hef := ends_token_eq_false (by simpa using he)
            apply ih (idx + 1) (part ++ [a]) line acc hdropb.symm hline1
              ?_ ?_ ?_ ?_ hacc ?_ hpair
            · rw [show (part ++ [a]).length = part.length + 1 by simp]
              rw [show idx + 1 - (part.length + 1) = idx - part.length by omega]
              exact hocc2
            · intro _
              rw [show (part ++ [a]).length = part.length + 1 by simp]
              omega
            · intro d hd
              rcases List.mem_append.mp hd with hd | hd
              · exact hpart3 d hd
              · rw [List.mem_singleton] at hd
                subst hd
                exact hwa
            · intro _ x hx
              rw [List.head?_cons, Option.some_inj] at hx
              subst hx
              exact hef.1
            · intro t ht
              have hb := hbound t ht
              rw [show (part ++ [a]).length = part.length + 1 by simp]
              push_cast at hb ⊢
              omega

/-! ## Grouper loop lemmas -/

theorem parse_loop_semi (t : Token) (rest cur : List Token)
    (out : List (List Char)) (h : t.token = Tokens.Semi) :
    parse_loop (t :: rest) cur out =
      (dispatch (cur ++ [t])).bind (fun r => parse_loop rest [] (out ++ [r])) := by
  simp only [parse_loop, if_pos h]
  rcases hd : dispatch (cur ++ [t]) with _ | r <;> simp [hd]

theorem parse_loop_not_semi (t : Token) (rest cur : List Token)
    (out : List (List Char)) (h : t.token ≠ Tokens.Semi) :
    parse_loop (t :: rest) cur out = parse_loop rest (cur ++ [t]) out := by
  simp only [parse_loop, if_neg h]

theorem parse_loop_stmt (body : List Token) :
    ∀ (tsemi : Token) (rest cur : List Token) (out : List (List Char)),
      (∀ t ∈ body, t.token ≠ Tokens.Semi) → tsemi.token = Tokens.Semi →
      parse_loop (body ++ tsemi :: rest) cur out =
        (dispatch ((cur ++ body) ++ [tsemi])).bind
          (fun r => parse_loop rest [] (out ++ [r])) := by
  induction body with
  | nil =>
    intro tsemi rest cur out hb hs
    simp only [List.nil_append]
    rw [parse_loop_semi tsemi rest cur out hs]
    simp
  | cons t body ih =>
    intro tsemi rest cur out hb hs
    have ht : t.token ≠ Tokens.Semi := hb t (List.mem_cons_self t body)
    simp only [List.cons_append]
    rw [parse_loop_not_semi t _ cur out ht]
    rw [ih tsemi rest (cur ++ [t]) out
      (fun u hu => hb u (List.mem_cons_of_mem t hu)) hs]
    have harr : (cur ++ [t]) ++ body = cur ++ (t :: body) := by simp
    rw [harr]

theorem parse_loop_no_semi (toks : List Token) :
    ∀ (cur : List Token) (out : List (List Char)),
      (∀ t ∈ toks, t.token ≠ Tokens.Semi) → parse_loop toks cur out = some out := by
  induction toks with
  | nil => intro cur out _; rfl
  | cons t rest ih =>
    intro cur out h
    have ht : t.token ≠ Tokens.Semi := h t (List.mem_cons_self t rest)
    rw [parse_loop_not_semi t rest cur out ht]
    exact ih (cur ++ [t]) out (fun u hu => h u (List.mem_cons_of_mem t hu))

theorem parse_loop_append_no_semi (toks : List Token) :
    ∀ (rest cur : List Token) (out : List (List Char)),
      (∀ t ∈ rest, t.token ≠ Tokens.Semi) →
      parse_loop (toks ++ rest) cur out = parse_loop toks cur out := by
  induction toks with
  | nil =>
    intro rest cur out h
    simp only [List.nil_append]
    rw [parse_loop_no_semi rest cur out h]
    rfl
  | cons t toks ih =>
    intro rest cur out h
    simp only [List.cons_append]
    by_cases ht : t.token = Tokens.Semi
    · rw [parse_loop_semi t _ cur out ht, parse_loop_semi t toks cur out ht]
      rcases hd : dispatch (cur ++ [t]) with _ | r
      · rfl
      · simp only [Option.some_bind]
        exact ih rest [] (out ++ [r]) h
    · rw [parse_loop_not_semi t _ cur out ht, parse_loop_not_semi t toks cur out ht]
      exact ih rest (cur ++ [t]) out h

/-! ## Claim theorems -/

theorem numeric_scan_eq (part : List Char) :
    numeric_scan part =
      if part.any is_char_numeric then Tokens.Numeric else Tokens.Identifier := by
  induction part with
  | nil => rfl
  | cons c cs ih =>
    simp only [numeric_scan, List.any_cons]
    by_cases hc : is_char_numeric c = true
    · simp [hc]
    · have hc' : is_char_numeric c = false := by simpa using hc
      simp [hc', ih]

/-- C1: the token classifier is a pure total function: it maps the ten
exact-match texts to their table entries, and every other text to
`Numeric` when at least one character is a decimal digit and to
`Identifier` otherwise (so the mixed text `a1` is `Numeric`). -/
theorem tokenize_classification :
    (tokenize ['-'] = Tokens.Minus ∧ tokenize ['+'] = Tokens.Plus ∧
      tokenize ['/'] = Tokens.Divide ∧ tokenize ['*'] = Tokens.Multiply ∧
      tokenize ['='] = Tokens.Assign ∧ tokenize ['$'] = Tokens.Var ∧
      tokenize [';'] = Tokens.Semi ∧ tokenize ['s', 'e', 't'] = Tokens.Set ∧
      tokenize ['j', 'u', 'm', 'p'] = Tokens.Jump ∧
      tokenize ['p', 'r', 'i', 'n', 't'] = Tokens.Print) ∧
    ∀ part : List Char,
      part ∉ ([['-'], ['+'], ['/'], ['*'], ['='], ['$'], [';'],
        ['s', 'e', 't'], ['j', 'u', 'm', 'p'],
        ['p', 'r', 'i', 'n', 't']] : List (List Char)) →
      tokenize part =
        if part.any is_char_numeric then Tokens.Numeric else Tokens.Identifier := by
  refine ⟨⟨by decide, by decide, by decide, by decide, by decide, by decide,
    by decide, by decide, by decide, by decide⟩, ?_⟩
  intro part hmem
  simp only [List.mem_cons, List.not_mem_nil, or_false, not_or] at hmem
  obtain ⟨h1, h2, h3, h4, h5, h6, h7, h8, h9, h10⟩ := hmem
  unfold tokenize
  simp only [if_neg h1, if_neg h2, if_neg h3, if_neg h4, if_neg h5, if_neg h6,
    if_neg h7, if_neg h8, if_neg h9, if_neg h10, if_pos rfl]
  exact numeric_scan_eq part

/-- Witness for C1 at the concrete inputs `"a1"` (mixed text, classified
`Numeric`) and `"a"` (classified `Identifier`). -/
theorem tokenize_classification_witness :
    tokenize ['a', '1'] = Tokens.Numeric ∧ tokenize ['a'] = Tokens.Identifier := by
  constructor
  · have h := tokenize_classification.2 ['a', '1'] (by decide)
    rw [h]
    decide
  · have h := tokenize_classification.2 ['a'] (by decide)
    rw [h]
    decide

/-- C2: in every successful scan, a token whose text contains one of the
fixed symbol characters `+ - * / > < = ; $` is exactly the one-character
token of that symbol; symbols never merge with neighbouring characters. -/
theorem lexer_symbols_single_char (input : List Char) (ts : List Token)
    (h : run_lexer input = some ts) :
    ∀ t ∈ ts, ∀ c ∈ t.part, is_char_symbol c = true → t.part = [c] := by
  obtain ⟨heq, hts⟩ := run_lexer_some_inv input ts h
  rw [hts]
  exact scan_list_symbol_inv (' ' :: ' ' :: new_lexer input) 0 [] 1 []
    (by simp) (by simp) (fun hne => absurd rfl hne)

/-- Witness for C2: scanning `"a+1;"` emits the one-character `+` token,
and the theorem forces its text to be exactly `['+']`. -/
theorem lexer_symbols_single_char_witness :
    run_lexer ['a', '+', '1', ';'] =
      some [⟨['a'], Tokens.Identifier, 1, 1⟩, ⟨['+'], Tokens.Plus, 1, 2⟩,
        ⟨['1'], Tokens.Numeric, 1, 3⟩, ⟨[';'], Tokens.Semi, 1, 4⟩] ∧
    (⟨['+'], Tokens.Plus, 1, 2⟩ : Token).part = ['+'] :=
  ⟨by rfl,
    lexer_symbols_single_char ['a', '+', '1', ';']
      [⟨['a'], Tokens.Identifier, 1, 1⟩, ⟨['+'], Tokens.Plus, 1, 2⟩,
        ⟨['1'], Tokens.Numeric, 1, 3⟩, ⟨[';'], Tokens.Semi, 1, 4⟩]
      (by rfl) ⟨['+'], Tokens.Plus, 1, 2⟩ (by decide) '+' (by decide) (by decide)⟩

/-- C10: in every successful scan, every emitted token has nonempty text
containing no space, tab or newline character. -/
theorem lexer_tokens_nonempty_nonws (input : List Char) (ts : List Token)
    (h : run_lexer input = some ts) :
    ∀ t ∈ ts, t.part ≠ [] ∧ ∀ c ∈ t.part, is_char_whitespace c = false := by
  obtain ⟨heq, hts⟩ := run_lexer_some_inv input ts h
  rw [hts]
  exact scan_list_part_inv (' ' :: ' ' :: new_lexer input) 0 [] 1 []
    (by simp) (by simp)

/-- Witness for C10 at the scan of `"a b"`. -/
theorem lexer_tokens_nonempty_nonws_witness :
    run_lexer ['a', ' ', 'b'] =
      some [⟨['a'], Tokens.Identifier, 1, 1⟩, ⟨['b'], Tokens.Identifier, 1, 3⟩] ∧
    ((⟨['b'], Tokens.Identifier, 1, 3⟩ : Token).part ≠ [] ∧
      ∀ c ∈ (⟨['b'], Tokens.Identifier, 1, 3⟩ : Token).part,
        is_char_whitespace c = false) :=
  ⟨by rfl,
    lexer_tokens_nonempty_nonws ['a', ' ', 'b']
      [⟨['a'], Tokens.Identifier, 1, 1⟩, ⟨['b'], Tokens.Identifier, 1, 3⟩]
      (by rfl) ⟨['b'], Tokens.Identifier, 1, 3⟩ (by decide)⟩

/-- C5 fails on the code: the scanner loop bound is the UTF-8 byte length
of the padded contents while the indexed array holds one entry per
character, so any input with a multi-byte character (here `"é"`) drives
the index past the end of the array; the Rust program panics (modelled by
`none`) instead of completing the scan. -/
theorem lexer_multibyte_input_fails : run_lexer ['é'] = none := by rfl

/-- C6: in every successful scan, concatenating the emitted token texts in
order yields exactly the non-whitespace characters of the padded source in
their original order. -/
theorem lexer_preserves_nonwhitespace (input : List Char) (ts : List Token)
    (h : run_lexer input = some ts) :
    (ts.map Token.part).flatten =
      (new_lexer input).filter (fun c => !is_char_whitespace c) := by
  obtain ⟨heq, hts⟩ := run_lexer_some_inv input ts h
  have hdl2 : (new_lexer input).dropLast.dropLast = input ++ [' ', ' '] := by
    unfold new_lexer
    rw [show input ++ [' ', ' ', ' ', ' '] = (input ++ [' ', ' ', ' ']) ++ [' '] by simp]
    rw [List.dropLast_concat]
    rw [show input ++ [' ', ' ', ' '] = (input ++ [' ', ' ']) ++ [' '] by simp]
    rw [List.dropLast_concat]
  have hstream : (' ' :: ' ' :: new_lexer input).dropLast.dropLast =
      ' ' :: ' ' :: (input ++ [' ', ' ']) := by
    have hlen4 : 4 ≤ (new_lexer input).length := by simp [new_lexer]
    have hne1 : (' ' :: new_lexer input) ≠ [] := by simp
    rw [List.dropLast_cons_of_ne_nil hne1]
    have hne2 : new_lexer input ≠ [] := by
      intro h0
      rw [h0] at hlen4
      simp at hlen4
    rw [List.dropLast_cons_of_ne_nil hne2]
    have hne3 : (' ' :: (new_lexer input).dropLast) ≠ [] := by simp
    rw [List.dropLast_cons_of_ne_nil hne3]
    have hne4 : (new_lexer input).dropLast ≠ [] := by
      intro h0
      have := congrArg List.length h0
      rw [List.length_dropLast] at this
      simp at this
      omega
    rw [List.dropLast_cons_of_ne_nil hne4]
    rw [hdl2]
  rw [hts]
  rw [scan_list_flatten (' ' :: ' ' :: new_lexer input) 0 [] 1 []
    (fun hne => absurd rfl hne) ?_]
  · rw [hstream]
    have hsp : is_char_whitespace ' ' = true := by decide
    simp only [List.map_nil, List.flatten_nil, List.nil_append,
      List.filter_cons, hsp, Bool.not_true, List.filter_append, new_lexer]
    simp
  · intro c hc
    rw [hstream] at hc
    rw [show (' ' :: ' ' :: (input ++ [' ', ' '])) =
      ((' ' :: ' ' :: input) ++ [' ']) ++ [' '] by simp] at hc
    rw [List.getLast?_concat] at hc
    rw [Option.some_inj] at hc
    subst hc
    decide

/-- Witness for C6 at the scan of `"a b"`. -/
theorem lexer_preserves_nonwhitespace_witness :
    run_lexer ['a', ' ', 'b'] =
      some [⟨['a'], Tokens.Identifier, 1, 1⟩, ⟨['b'], Tokens.Identifier, 1, 3⟩] ∧
    (([⟨['a'], Tokens.Identifier, 1, 1⟩,
        ⟨['b'], Tokens.Identifier, 1, 3⟩] : List Token).map Token.part).flatten =
      (new_lexer ['a', ' ', 'b']).filter (fun c => !is_char_whitespace c) :=
  ⟨by rfl,
    lexer_preserves_nonwhitespace ['a', ' ', 'b']
      [⟨['a'], Tokens.Identifier, 1, 1⟩, ⟨['b'], Tokens.Identifier, 1, 3⟩] (by rfl)⟩

/-- Every successful scan satisfies `tok_good` for all its tokens, with
columns in non-decreasing order. -/
theorem run_lexer_tok_good (input : List Char) (ts : List Token)
    (h : run_lexer input = some ts) :
    (∀ t ∈ ts, tok_good (' ' :: ' ' :: new_lexer input) t) ∧
      ((ts.map Token.char_num).Pairwise (· ≤ ·)) := by
  obtain ⟨heq, hts⟩ := run_lexer_some_inv input ts h
  have hascii_pad := byte_len_eq_length_ascii (new_lexer input) heq
  have hascii : ∀ c ∈ (' ' :: ' ' :: new_lexer input), char_utf8_len c = 1 := by
    intro c hc
    rcases List.mem_cons.mp hc with rfl | hc
    · decide
    · rcases List.mem_cons.mp hc with rfl | hc
      · decide
      · exact hascii_pad c hc
  have hws2 : ∀ c ∈ (' ' :: ' ' :: new_lexer input).take 2,
      is_char_whitespace c = true := by
    intro c hc
    simp only [List.take_succ_cons, List.take_zero] at hc
    rcases List.mem_cons.mp hc with rfl | hc
    · decide
    · rcases List.mem_cons.mp hc with rfl | hc
      · decide
      · simp at hc
  have hmain := scan_list_pos (' ' :: ' ' :: new_lexer input) hws2 hascii
    (' ' :: ' ' :: new_lexer input) 0 [] 1 [] (by simp) (by simp) (by simp)
    (fun hne => absurd rfl hne) (by simp) (fun hne => absurd rfl hne)
    (by simp) (by simp) (by simp)
  rw [hts]
  exact hmain

/-- C7: in every successful scan, each token's recorded column is at least
one and the token's text occurs in the padded source at exactly that
one-based character position; the column sequence over the whole token
stream is non-decreasing (it is an absolute offset, never reset at
newlines). -/
theorem lexer_char_num_position (input : List Char) (ts : List Token)
    (h : run_lexer input = some ts) :
    (∀ t ∈ ts, 1 ≤ t.char_num ∧
      ((new_lexer input).drop (t.char_num.toNat - 1)).take t.part.length =
        t.part) ∧
    ((ts.map Token.char_num).Pairwise (· ≤ ·)) := by
  obtain ⟨hgood, hpair⟩ := run_lexer_tok_good input ts h
  refine ⟨?_, hpair⟩
  intro t ht
  obtain ⟨hcn, hne, hocc, hline⟩ := hgood t ht
  refine ⟨hcn, ?_⟩
  have hdropeq : (' ' :: ' ' :: new_lexer input).drop (t.char_num.toNat + 1) =
      (new_lexer input).drop (t.char_num.toNat - 1) := by
    rw [show t.char_num.toNat + 1 = (t.char_num.toNat - 1) + 1 + 1 by omega]
    rw [List.drop_succ_cons, List.drop_succ_cons]
  rw [hdropeq] at hocc
  exact hocc

/-- Witness for C7 at the scan of `"a b"`: the `b` token has column 3,
its text occurs at one-based position 3 of the padded source, and the
columns 1, 3 are non-decreasing. -/
theorem lexer_char_num_position_witness :
    run_lexer ['a', ' ', 'b'] =
      some [⟨['a'], Tokens.Identifier, 1, 1⟩, ⟨['b'], Tokens.Identifier, 1, 3⟩] ∧
    (1 ≤ (⟨['b'], Tokens.Identifier, 1, 3⟩ : Token).char_num ∧
      ((new_lexer ['a', ' ', 'b']).drop
          ((⟨['b'], Tokens.Identifier, 1, 3⟩ : Token).char_num.toNat - 1)).take
        (⟨['b'], Tokens.Identifier, 1, 3⟩ : Token).part.length =
        (⟨['b'], Tokens.Identifier, 1, 3⟩ : Token).part) ∧
    ((([⟨['a'], Tokens.Identifier, 1, 1⟩, ⟨['b'], Tokens.Identifier, 1, 3⟩] :
        List Token).map Token.char_num).Pairwise (· ≤ ·)) :=
  ⟨by rfl,
    (lexer_char_num_position ['a', ' ', 'b']
      [⟨['a'], Tokens.Identifier, 1, 1⟩, ⟨['b'], Tokens.Identifier, 1, 3⟩]
      (by rfl)).1 ⟨['b'], Tokens.Identifier, 1, 3⟩ (by decide),
    (lexer_char_num_position ['a', ' ', 'b']
      [⟨['a'], Tokens.Identifier, 1, 1⟩, ⟨['b'], Tokens.Identifier, 1, 3⟩]
      (by rfl)).2⟩

/-- C8: in every successful scan, each token's line number is one plus the
number of newline characters of the padded source strictly before the
token's first character: tokens before the first newline carry line 1 and
every newline increments the line of all later tokens by one. -/
theorem lexer_line_numbers (input : List Char) (ts : List Token)
    (h : run_lexer input = some ts) :
    ∀ t ∈ ts, t.line_num =
      1 + (((new_lexer input).take (t.char_num.toNat - 1)).count '\n' : Int) := by
  obtain ⟨hgood, _⟩ := run_lexer_tok_good input ts h
  intro t ht
  obtain ⟨hcn, hne, hocc, hline⟩ := hgood t ht
  have htakeq : (' ' :: ' ' :: new_lexer input).take (t.char_num.toNat + 1) =
      ' ' :: ' ' :: (new_lexer input).take (t.char_num.toNat - 1) := by
    rw [show t.char_num.toNat + 1 = (t.char_num.toNat - 1) + 1 + 1 by omega]
    rw [List.take_succ_cons, List.take_succ_cons]
  rw [htakeq] at hline
  rw [hline]
  simp [List.count_cons]

/-- Witness for C8 at the scan of `"a` newline `b"`: the `a` token (before
the newline) carries line 1 and the `b` token (after it) carries line 2. -/
theorem lexer_line_numbers_witness :
    run_lexer ['a', '\n', 'b'] =
      some [⟨['a'], Tokens.Identifier, 1, 1⟩, ⟨['b'], Tokens.Identifier, 2, 3⟩] ∧
    (⟨['a'], Tokens.Identifier, 1, 1⟩ : Token).line_num =
      1 + (((new_lexer ['a', '\n', 'b']).take
        ((⟨['a'], Tokens.Identifier, 1, 1⟩ : Token).char_num.toNat - 1)).count
          '\n' : Int) ∧
    (⟨['b'], Tokens.Identifier, 2, 3⟩ : Token).line_num =
      1 + (((new_lexer ['a', '\n', 'b']).take
        ((⟨['b'], Tokens.Identifier, 2, 3⟩ : Token).char_num.toNat - 1)).count
          '\n' : Int) :=
  ⟨by rfl,
    lexer_line_numbers ['a', '\n', 'b']
      [⟨['a'], Tokens.Identifier, 1, 1⟩, ⟨['b'], Tokens.Identifier, 2, 3⟩]
      (by rfl) ⟨['a'], Tokens.Identifier, 1, 1⟩ (by decide),
    lexer_line_numbers ['a', '\n', 'b']
      [⟨['a'], Tokens.Identifier, 1, 1⟩, ⟨['b'], Tokens.Identifier, 2, 3⟩]
      (by rfl) ⟨['b'], Tokens.Identifier, 2, 3⟩ (by decide)⟩

/-- A single Terminator-closed statement runs through `parse` as one
dispatch. -/
theorem parse_single_stmt (body : List Token) (tsemi : Token)
    (hb : ∀ t ∈ body, t.token ≠ Tokens.Semi) (hs : tsemi.token = Tokens.Semi) :
    parse (body ++ [tsemi]) =
      (dispatch (body ++ [tsemi])).bind (fun r => some [r]) := by
  unfold parse
  have h := parse_loop_stmt body tsemi [] [] [] hb hs
  simpa [parse_loop] using h

theorem parse_set_eq (t0 : Token) (body : List Token) (tsemi t1 t3 : Token)
    (hb : ∀ t ∈ t0 :: body, t.token ≠ Tokens.Semi)
    (hs : tsemi.token = Tokens.Semi) (h0 : t0.token = Tokens.Set)
    (hg1 : ((t0 :: body) ++ [tsemi]).get? 1 = some t1)
    (hg3 : ((t0 :: body) ++ [tsemi]).get? 3 = some t3) :
    parse ((t0 :: body) ++ [tsemi]) =
      some [t1.part ++ [' ', '=', ' '] ++ t3.part] := by
  rw [parse_single_stmt (t0 :: body) tsemi hb hs]
  have hget0 : ((t0 :: body) ++ [tsemi]).get? 0 = some t0 := rfl
  simp only [dispatch, hget0]
  rw [if_pos h0]
  simp only [set_stmt, hg1, hg3, Option.some_bind]

theorem parse_print_eq (t0 : Token) (body : List Token) (tsemi t1 : Token)
    (hb : ∀ t ∈ t0 :: body, t.token ≠ Tokens.Semi)
    (hs : tsemi.token = Tokens.Semi) (h0 : t0.token = Tokens.Print)
    (hg1 : ((t0 :: body) ++ [tsemi]).get? 1 = some t1) :
    parse ((t0 :: body) ++ [tsemi]) =
      some [['p', 'r', 'i', 'n', 't', '('] ++ t1.part ++ [')']] := by
  rw [parse_single_stmt (t0 :: body) tsemi hb hs]
  have hget0 : ((t0 :: body) ++ [tsemi]).get? 0 = some t0 := rfl
  have hns : t0.token ≠ Tokens.Set := by rw [h0]; decide
  simp only [dispatch, hget0]
  rw [if_neg hns, if_pos h0]
  simp only [print_stmt, hg1, Option.some_bind]

theorem parse_exec_eq (body : List Token) (tsemi h0 : Token)
    (hb : ∀ t ∈ body, t.token ≠ Tokens.Semi) (hs : tsemi.token = Tokens.Semi)
    (hh : (body ++ [tsemi]).head? = some h0)
    (hns : h0.token ≠ Tokens.Set) (hnp : h0.token ≠ Tokens.Print) :
    parse (body ++ [tsemi]) =
      some [(((body ++ [tsemi]).map Token.part).flatten).dropLast] := by
  rw [parse_single_stmt body tsemi hb hs]
  have hget0 : (body ++ [tsemi]).get? 0 = some h0 := by
    rw [List.get?_zero]
    exact hh
  simp only [dispatch, hget0]
  rw [if_neg hns, if_neg hnp]
  simp only [exec_stmt, Option.some_bind]

/-- C3: dispatch of each Terminator-closed statement on its first token's
kind: a `Keyword(Set)` statement renders as second token text, `" = "`,
fourth token text; a `Keyword(Print)` statement renders as `"print("`,
second token text, `")"`; any other statement renders as the
concatenation of all token texts with the final character removed. -/
theorem parse_dispatch_rules :
    (∀ (t0 : Token) (body : List Token) (tsemi t1 t3 : Token),
      (∀ t ∈ t0 :: body, t.token ≠ Tokens.Semi) → tsemi.token = Tokens.Semi →
      t0.token = Tokens.Set →
      ((t0 :: body) ++ [tsemi]).get? 1 = some t1 →
      ((t0 :: body) ++ [tsemi]).get? 3 = some t3 →
      parse ((t0 :: body) ++ [tsemi]) =
        some [t1.part ++ [' ', '=', ' '] ++ t3.part]) ∧
    (∀ (t0 : Token) (body : List Token) (tsemi t1 : Token),
      (∀ t ∈ t0 :: body, t.token ≠ Tokens.Semi) → tsemi.token = Tokens.Semi →
      t0.token = Tokens.Print →
      ((t0 :: body) ++ [tsemi]).get? 1 = some t1 →
      parse ((t0 :: body) ++ [tsemi]) =
        some [['p', 'r', 'i', 'n', 't', '('] ++ t1.part ++ [')']]) ∧
    (∀ (body : List Token) (tsemi h0 : Token),
      (∀ t ∈ body, t.token ≠ Tokens.Semi) → tsemi.token = Tokens.Semi →
      (body ++ [tsemi]).head? = some h0 →
      h0.token ≠ Tokens.Set → h0.token ≠ Tokens.Print →
      parse (body ++ [tsemi]) =
        some [(((body ++ [tsemi]).map Token.part).flatten).dropLast]) :=
  ⟨fun t0 body tsemi t1 t3 hb hs h0 hg1 hg3 =>
      parse_set_eq t0 body tsemi t1 t3 hb hs h0 hg1 hg3,
   fun t0 body tsemi t1 hb hs h0 hg1 =>
      parse_print_eq t0 body tsemi t1 hb hs h0 hg1,
   fun body tsemi h0 hb hs hh hns hnp =>
      parse_exec_eq body tsemi h0 hb hs hh hns hnp⟩

/-- Witness for C3: `set a = 0;` renders `"a = 0"`, `print a;` renders
`"print(a)"`, and the keywordless `x+1;` renders `"x+1"`. -/
theorem parse_dispatch_rules_witness :
    parse [⟨['s', 'e', 't'], Tokens.Set, 1, 1⟩,
        ⟨['a'], Tokens.Identifier, 1, 5⟩, ⟨['='], Tokens.Assign, 1, 7⟩,
        ⟨['0'], Tokens.Numeric, 1, 9⟩, ⟨[';'], Tokens.Semi, 1, 10⟩] =
      some [['a', ' ', '=', ' ', '0']] ∧
    parse [⟨['p', 'r', 'i', 'n', 't'], Tokens.Print, 1, 1⟩,
        ⟨['a'], Tokens.Identifier, 1, 7⟩, ⟨[';'], Tokens.Semi, 1, 8⟩] =
      some [['p', 'r', 'i', 'n', 't', '(', 'a', ')']] ∧
    parse [⟨['x'], Tokens.Identifier, 1, 1⟩, ⟨['+'], Tokens.Plus, 1, 2⟩,
        ⟨['1'], Tokens.Numeric, 1, 3⟩, ⟨[';'], Tokens.Semi, 1, 4⟩] =
      some [['x', '+', '1']] := by
  refine ⟨?_, ?_, ?_⟩
  · have h := parse_dispatch_rules.1 ⟨['s', 'e', 't'], Tokens.Set, 1, 1⟩
      [⟨['a'], Tokens.Identifier, 1, 5⟩, ⟨['='], Tokens.Assign, 1, 7⟩,
        ⟨['0'], Tokens.Numeric, 1, 9⟩] ⟨[';'], Tokens.Semi, 1, 10⟩
      ⟨['a'], Tokens.Identifier, 1, 5⟩ ⟨['0'], Tokens.Numeric, 1, 9⟩
      (by decide) rfl rfl rfl rfl
    simpa using h
  · have h := parse_dispatch_rules.2.1 ⟨['p', 'r', 'i', 'n', 't'], Tokens.Print, 1, 1⟩
      [⟨['a'], Tokens.Identifier, 1, 7⟩] ⟨[';'], Tokens.Semi, 1, 8⟩
      ⟨['a'], Tokens.Identifier, 1, 7⟩ (by decide) rfl rfl rfl
    simpa using h
  · have h := parse_dispatch_rules.2.2
      [⟨['x'], Tokens.Identifier, 1, 1⟩, ⟨['+'], Tokens.Plus, 1, 2⟩,
        ⟨['1'], Tokens.Numeric, 1, 3⟩] ⟨[';'], Tokens.Semi, 1, 4⟩
      ⟨['x'], Tokens.Identifier, 1, 1⟩ (by decide) rfl rfl
      (by decide) (by decide)
    simpa using h

/-- C4: tokens after the last Terminator are silently discarded by the
grouper: appending Terminator-free tokens never changes the rendered
output, and a token sequence with no Terminator at all renders zero
statements. -/
theorem parse_drops_unterminated :
    (∀ (toks rest : List Token), (∀ t ∈ rest, t.token ≠ Tokens.Semi) →
      parse (toks ++ rest) = parse toks) ∧
    (∀ toks : List Token, (∀ t ∈ toks, t.token ≠ Tokens.Semi) →
      parse toks = some []) :=
  ⟨fun toks rest h => parse_loop_append_no_semi toks rest [] [] h,
   fun toks h => parse_loop_no_semi toks [] [] h⟩

/-- Witness for C4: the scanner still emits tokens for the unterminated
`"print a"`, but grouping them yields zero statements, and appending them
after a terminated statement changes nothing. -/
theorem parse_drops_unterminated_witness :
    run_lexer ['p', 'r', 'i', 'n', 't', ' ', 'a'] =
      some [⟨['p', 'r', 'i', 'n', 't'], Tokens.Print, 1, 1⟩,
        ⟨['a'], Tokens.Identifier, 1, 7⟩] ∧
    parse [⟨['p', 'r', 'i', 'n', 't'], Tokens.Print, 1, 1⟩,
        ⟨['a'], Tokens.Identifier, 1, 7⟩] = some [] ∧
    parse ([⟨['x'], Tokens.Identifier, 1, 1⟩, ⟨[';'], Tokens.Semi, 1, 2⟩] ++
        [⟨['p', 'r', 'i', 'n', 't'], Tokens.Print, 1, 1⟩,
          ⟨['a'], Tokens.Identifier, 1, 7⟩]) =
      parse [⟨['x'], Tokens.Identifier, 1, 1⟩, ⟨[';'], Tokens.Semi, 1, 2⟩] :=
  ⟨by rfl,
   parse_drops_unterminated.2
     [⟨['p', 'r', 'i', 'n', 't'], Tokens.Print, 1, 1⟩,
       ⟨['a'], Tokens.Identifier, 1, 7⟩] (by decide),
   parse_drops_unterminated.1
     [⟨['x'], Tokens.Identifier, 1, 1⟩, ⟨[';'], Tokens.Semi, 1, 2⟩]
     [⟨['p', 'r', 'i', 'n', 't'], Tokens.Print, 1, 1⟩,
       ⟨['a'], Tokens.Identifier, 1, 7⟩] (by decide)⟩

/-- C9: fixed-position access of the render rules.  A `Keyword(Set)`
statement with at least four tokens has positions 2 and 4 in range and
renders; a `Keyword(Set)` statement with fewer than four tokens makes the
render rule hit the out-of-range access and the whole grouping fails
(`none`, the modelled fatal indexing panic) instead of silently producing
output; a `Keyword(Print)` statement always has at least two tokens (its
first token is not the Terminator), so position 2 is always in range and
it renders. -/
theorem parse_fixed_position_access :
    (∀ (t0 : Token) (body : List Token) (tsemi : Token),
      (∀ t ∈ t0 :: body, t.token ≠ Tokens.Semi) → tsemi.token = Tokens.Semi →
      t0.token = Tokens.Set → 4 ≤ ((t0 :: body) ++ [tsemi]).length →
      (((t0 :: body) ++ [tsemi]).get? 1).isSome = true ∧
        (((t0 :: body) ++ [tsemi]).get? 3).isSome = true ∧
        ∃ r, parse ((t0 :: body) ++ [tsemi]) = some r) ∧
    (∀ (t0 : Token) (body : List Token) (tsemi : Token),
      (∀ t ∈ t0 :: body, t.token ≠ Tokens.Semi) → tsemi.token = Tokens.Semi →
      t0.token = Tokens.Set → ((t0 :: body) ++ [tsemi]).length < 4 →
      parse ((t0 :: body) ++ [tsemi]) = none) ∧
    (∀ (t0 : Token) (body : List Token) (tsemi : Token),
      (∀ t ∈ t0 :: body, t.token ≠ Tokens.Semi) → tsemi.token = Tokens.Semi →
      t0.token = Tokens.Print →
      2 ≤ ((t0 :: body) ++ [tsemi]).length ∧
        (((t0 :: body) ++ [tsemi]).get? 1).isSome = true ∧
        ∃ r, parse ((t0 :: body) ++ [tsemi]) = some r) := by
  refine ⟨?_, ?_, ?_⟩
  · intro t0 body tsemi hb hs h0 hlen4
    have hlen : ((t0 :: body) ++ [tsemi]).length = body.length + 2 := by simp
    rcases hq1 : ((t0 :: body) ++ [tsemi]).get? 1 with _ | t1
    · rw [List.get?_eq_none] at hq1
      omega
    rcases hq3 : ((t0 :: body) ++ [tsemi]).get? 3 with _ | t3
    · rw [List.get?_eq_none] at hq3
      omega
    refine ⟨by rfl, by rfl, ?_⟩
    exact ⟨[t1.part ++ [' ', '=', ' '] ++ t3.part],
      parse_set_eq t0 body tsemi t1 t3 hb hs h0 hq1 hq3⟩
  · intro t0 body tsemi hb hs h0 hlt
    have hlen : ((t0 :: body) ++ [tsemi]).length = body.length + 2 := by simp
    rcases hq1 : ((t0 :: body) ++ [tsemi]).get? 1 with _ | t1
    · rw [List.get?_eq_none] at hq1
      omega
    have hq3 : ((t0 :: body) ++ [tsemi]).get? 3 = none := by
      rw [List.get?_eq_none]
      omega
    rw [parse_single_stmt (t0 :: body) tsemi hb hs]
    have hget0 : ((t0 :: body) ++ [tsemi]).get? 0 = some t0 := rfl
    simp only [dispatch, hget0]
    rw [if_pos h0]
    simp only [set_stmt, hq1, hq3]
    rfl
  · intro t0 body tsemi hb hs h0
    have hlen : ((t0 :: body) ++ [tsemi]).length = body.length + 2 := by simp
    rcases hq1 : ((t0 :: body) ++ [tsemi]).get? 1 with _ | t1
    · rw [List.get?_eq_none] at hq1
      omega
    refine ⟨by omega, by rfl, ?_⟩
    exact ⟨[['p', 'r', 'i', 'n', 't', '('] ++ t1.part ++ [')']],
      parse_print_eq t0 body tsemi t1 hb hs h0 hq1⟩

/-- Witness for C9: `set a = 0;` (five tokens) renders, the two-token
`set ;` statement makes the grouper fail with the fatal out-of-range
access, and `print a;` renders. -/
theorem parse_fixed_position_access_witness :
    parse [⟨['s', 'e', 't'], Tokens.Set, 1, 1⟩, ⟨[';'], Tokens.Semi, 1, 5⟩] =
      none ∧
    (∃ r, parse [⟨['s', 'e', 't'], Tokens.Set, 1, 1⟩,
      ⟨['a'], Tokens.Identifier, 1, 5⟩, ⟨['='], Tokens.Assign, 1, 7⟩,
      ⟨['0'], Tokens.Numeric, 1, 9⟩, ⟨[';'], Tokens.Semi, 1, 10⟩] = some r) ∧
    (∃ r, parse [⟨['p', 'r', 'i', 'n', 't'], Tokens.Print, 1, 1⟩,
      ⟨['a'], Tokens.Identifier, 1, 7⟩, ⟨[';'], Tokens.Semi, 1, 8⟩] = some r) :=
  ⟨parse_fixed_position_access.2.1 ⟨['s', 'e', 't'], Tokens.Set, 1, 1⟩ []
      ⟨[';'], Tokens.Semi, 1, 5⟩ (by decide) rfl rfl (by decide),
   (parse_fixed_position_access.1 ⟨['s', 'e', 't'], Tokens.Set, 1, 1⟩
      [⟨['a'], Tokens.Identifier, 1, 5⟩, ⟨['='], Tokens.Assign, 1, 7⟩,
        ⟨['0'], Tokens.Numeric, 1, 9⟩] ⟨[';'], Tokens.Semi, 1, 10⟩
      (by decide) rfl rfl (by decide)).2.2,
   (parse_fixed_position_access.2.2 ⟨['p', 'r', 'i', 'n', 't'], Tokens.Print, 1, 1⟩
      [⟨['a'], Tokens.Identifier, 1, 7⟩] ⟨[';'], Tokens.Semi, 1, 8⟩
      (by decide) rfl rfl).2.2⟩
